import Mathlib

/-!
Shallow embedding of `src/count_min_sketch.rs` (crate `count_min_sketch`).

The Rust struct `CountMinSketch<K>` holds a `depth × width` matrix of `u64`
counters (`vec: Vec<Vec<u64>>`), one `RandomState` hash builder per row, and a
`usize` counter of store calls.  We model:

* `u64` cells as `Nat` clamped by `saturating_add` at `U64MAX = 2^64 - 1`;
* the `usize` counter as `Nat` with wraparound modulo `USIZEMOD = 2^64`
  (the crate targets 64-bit platforms; `self.counter += 1` wraps there in
  release builds);
* each `RandomState` as an abstract digest function `K → Nat`; the Rust
  `hasher.finish()` is a `u64`, so the digest is reduced modulo `2^64`
  before the `% width` reduction that the source performs;
* every operation that can panic in Rust (slice indexing, `Option::unwrap`,
  the `assert!` in `hash_with_seed`) as an `Option`-returning function where
  `none` models the panic.
-/

namespace CountMin

/-- Modulus of the 64-bit unsigned cell counters (Rust `u64`). -/
def U64MOD : Nat := 2 ^ 64

/-- Largest representable `u64` value; `saturating_add` clamps here. -/
def U64MAX : Nat := 2 ^ 64 - 1

/-- Modulus of `usize` on the 64-bit targets the crate is built for. -/
def USIZEMOD : Nat := 2 ^ 64

/-- Rust `u64::saturating_add`: add and clamp at `u64::MAX`. -/
def satAdd (a b : Nat) : Nat := min (a + b) U64MAX

/-- The `CountMinSketch<K>` struct.  `vec` is the `depth × width` counter
matrix, `hash_builders` the per-row `RandomState` values (each abstracted as
the digest function its hasher computes), `counter` the `usize` store count. -/
structure CountMinSketch (K : Type) where
  width : Nat
  depth : Nat
  vec : List (List Nat)
  hash_builders : List (K → Nat)
  counter : Nat

variable {K : Type}

/-- `std::num::NonZeroUsize::new`: `some` exactly on positive inputs. -/
def nonZeroUsize (n : Nat) : Option {m : Nat // 0 < m} :=
  if h : 0 < n then some ⟨n, h⟩ else none

/-- `CountMinSketch::new(width, depth)`.  The Rust signature takes
`NonZeroUsize` arguments, modelled as the subtype of positive naturals.
`rs i` is the digest function of the `i`-th `RandomState::new()` drawn by
`(0..depth).map(|_| RandomState::new())`. -/
def new (width depth : {n : Nat // 0 < n}) (rs : Nat → K → Nat) :
    CountMinSketch K :=
  { width := width.1
    depth := depth.1
    vec := List.replicate depth.1 (List.replicate width.1 0)
    hash_builders := (List.range depth.1).map rs
    counter := 0 }

/-- The construction path a caller of `new` goes through when its dimensions
are plain integers: `NonZeroUsize::new` on each argument (whose `None` is the
`InvalidDimension` failure) followed by `CountMinSketch::new`. -/
def new_checked (w d : Nat) (rs : Nat → K → Nat) :
    Option (CountMinSketch K) :=
  (nonZeroUsize w).bind fun wz =>
    (nonZeroUsize d).map fun dz => new wz dz rs

/-- `hash_with_seed(&self, key, seed)`: `assert!(seed < self.depth)`, build the
row's hasher, hash the key, and reduce the `u64` digest modulo `width`.  A
failed assertion or out-of-range index is `none` (a panic). -/
def hash_with_seed (s : CountMinSketch K) (key : K) (seed : Nat) :
    Option Nat :=
  if seed < s.depth then
    (s.hash_builders[seed]?).map fun hb => hb key % U64MOD % s.width
  else
    none

/-- The body of the `for depth_index in 0..self.depth` loop of `store`:
`self.vec[d][hash] = self.vec[d][hash].saturating_add(1)`, with each indexing
step fallible. -/
def storeBody (s : CountMinSketch K) (key : K) (d : Nat) :
    Option (CountMinSketch K) :=
  (hash_with_seed s key d).bind fun col =>
    (s.vec[d]?).bind fun row =>
      (row[col]?).map fun cell =>
        { s with vec := s.vec.set d (row.set col (satAdd cell 1)) }

/-- The `for` loop of `store`, iterating the loop body over a list of row
indices (`List.range depth` at the call site). -/
def storeLoop (key : K) :
    CountMinSketch K → List Nat → Option (CountMinSketch K)
  | s, [] => some s
  | s, d :: ds => (storeBody s key d).bind fun s' => storeLoop key s' ds

/-- `store(&mut self, key)`: `self.counter += 1` (usize, wrapping), then one
saturating increment per row. -/
def store (s : CountMinSketch K) (key : K) : Option (CountMinSketch K) :=
  storeLoop key { s with counter := (s.counter + 1) % USIZEMOD }
    (List.range s.depth)

/-- One element of `query`'s iterator chain:
`*self.vec.get(depth).unwrap().get(self.hash_with_seed(key, depth) as usize).unwrap()`. -/
def queryCell (s : CountMinSketch K) (key : K) (d : Nat) : Option Nat :=
  (s.vec[d]?).bind fun row =>
    (hash_with_seed s key d).bind fun col => row[col]?

/-- Collect the values of a fallible iterator; any panic aborts the chain. -/
def optionList : List (Option Nat) → Option (List Nat)
  | [] => some []
  | o :: os => o.bind fun v => (optionList os).map fun vs => v :: vs

/-- Rust `Iterator::min`: `none` on an empty iterator, otherwise the least
element (a left fold with `min`). -/
def iterMin : List Nat → Option Nat
  | [] => none
  | v :: vs => some (vs.foldl min v)

/-- `query(&self, key)`: map each row to its cell value and take
`.min().unwrap()`; the trailing `unwrap` panics (is `none`) only when the
iterator is empty, i.e. when `depth = 0`. -/
def query (s : CountMinSketch K) (key : K) : Option Nat :=
  (optionList ((List.range s.depth).map (queryCell s key))).bind iterMin

/-- `total_count(&self)`: returns `self.counter`. -/
def total_count (s : CountMinSketch K) : Nat := s.counter

/-- A sequence of `store` calls, in order; `none` if any call panics. -/
def runStores : CountMinSketch K → List K → Option (CountMinSketch K)
  | s, [] => some s
  | s, k :: ks => (store s k).bind fun s' => runStores s' ks

/-- The column row `d` sends `key` to: the row's digest reduced to `u64` and
then modulo `width`, exactly as `hash_with_seed` computes it (total form). -/
def colOf (s : CountMinSketch K) (key : K) (d : Nat) : Nat :=
  (s.hash_builders.getD d fun _ => 0) key % U64MOD % s.width

/-- The counter cell of row `d`, column `c` (0 outside the matrix). -/
def cellAt (s : CountMinSketch K) (d c : Nat) : Nat :=
  (s.vec.getD d []).getD c 0

/-- Modelled from the spec: the atomic units of the concurrent store path
(`store_parallel`).  The method is called from `src/main.rs` but its body is
not among the sources; §4.4 of the spec mandates that each cell update be an
atomic read-modify-write (an atomic saturating increment) and that
`total_stores` be updated atomically, with per-row hashing read-only. -/
inductive AtomicAction where
  | incCell (row col : Nat)
  | incTotal
deriving DecidableEq

/-- Modelled from the spec: the effect of one atomic action on the shared
state — an atomic saturating increment of one cell, or an atomic bump of the
`usize` total counter. -/
def applyAction (s : CountMinSketch K) : AtomicAction → CountMinSketch K
  | .incCell d c =>
    { s with vec := s.vec.set d ((s.vec.getD d []).set c
        (satAdd ((s.vec.getD d []).getD c 0) 1)) }
  | .incTotal => { s with counter := (s.counter + 1) % USIZEMOD }

/-- Modelled from the spec: the atomic actions one `store_parallel(key)` call
performs — one total-counter bump and one saturating increment of the cell
each row hashes the key to (hashing itself is read-only). -/
def storeActions (s : CountMinSketch K) (key : K) : List AtomicAction :=
  AtomicAction.incTotal ::
    ((List.range s.depth).map fun d => AtomicAction.incCell d (colOf s key d))

/-- The multiset of atomic actions of one `store_parallel` call per element
of `ks`; a concurrent execution of those calls is any interleaving — and in
particular any permutation — of this list. -/
def actionsOf (s : CountMinSketch K) (ks : List K) : List AtomicAction :=
  (ks.map (storeActions s)).flatten

/-- The bounds an atomic action produced against a given sketch satisfies:
cell updates target a real row and a real column. -/
def actionWF (s : CountMinSketch K) : AtomicAction → Prop
  | .incCell d c => d < s.depth ∧ c < s.width
  | .incTotal => True

/-- A digest family that sends everything to 0 (used for concrete runs). -/
def zeroHash : Nat → Nat → Nat := fun _ _ => 0

/-- The positive integer 1, as a `NonZeroUsize`. -/
def onePos : {n : Nat // 0 < n} := ⟨1, Nat.one_pos⟩

/-- A concrete 1×1 sketch over `Nat` keys. -/
def cms11 : CountMinSketch Nat := new onePos onePos zeroHash

/-- Well-formedness: the representation invariant every Rust
`CountMinSketch` value has by construction — positive dimensions (from
`NonZeroUsize`), a `depth × width` matrix, one hash builder per row, cells
within `u64` range and the counter within `usize` range. -/
abbrev WF (s : CountMinSketch K) : Prop :=
  0 < s.width ∧ 0 < s.depth ∧ s.vec.length = s.depth ∧
  (∀ row ∈ s.vec, row.length = s.width) ∧
  s.hash_builders.length = s.depth ∧
  (∀ i < s.depth, ∀ j < s.width, cellAt s i j ≤ U64MAX) ∧
  s.counter < USIZEMOD

/-! ### Arithmetic facts about saturating addition -/

theorem satAdd_le_max (a b : Nat) : satAdd a b ≤ U64MAX := by
  simp only [satAdd]; omega

theorem le_satAdd_one {a : Nat} (h : a ≤ U64MAX) : a ≤ satAdd a 1 := by
  simp only [satAdd]; omega

theorem satAdd_min_one (x k : Nat) :
    satAdd (min (x + k) U64MAX) 1 = min (x + (k + 1)) U64MAX := by
  simp only [satAdd]; omega

theorem min_one_add_min (x n : Nat) :
    min (min (x + 1) U64MAX + n) U64MAX = min (x + (n + 1)) U64MAX := by
  omega

theorem min_le_of_le {a b n : Nat} (h : a ≤ b) :
    min (a + n) U64MAX ≤ min (b + n) U64MAX := by
  omega

theorem min_one_add_le (x n : Nat) :
    min (x + (n + 1)) U64MAX ≤ min (min (x + 1) U64MAX + n) U64MAX := by
  omega

/-! ### List access helpers for the counter matrix -/

theorem getD_set_self (l : List Nat) (c v : Nat) (hc : c < l.length) :
    (l.set c v).getD c 0 = v := by
  simp [List.getD_eq_getElem?_getD, List.getElem?_set, hc]

theorem getD_set_other (l : List Nat) {c j : Nat} (v : Nat) (h : c ≠ j) :
    (l.set c v).getD j 0 = l.getD j 0 := by
  simp [List.getD_eq_getElem?_getD, List.getElem?_set, h]

theorem getDl_set_self (m : List (List Nat)) (d : Nat) (r : List Nat)
    (hd : d < m.length) : (m.set d r).getD d [] = r := by
  simp [List.getD_eq_getElem?_getD, List.getElem?_set, hd]

theorem getDl_set_other (m : List (List Nat)) {d i : Nat} (r : List Nat)
    (h : d ≠ i) : (m.set d r).getD i [] = m.getD i [] := by
  simp [List.getD_eq_getElem?_getD, List.getElem?_set, h]

/-! ### Hashing -/

theorem colOf_lt (s : CountMinSketch K) (key : K) (d : Nat)
    (hw : 0 < s.width) : colOf s key d < s.width :=
  Nat.mod_lt _ hw

theorem colOf_congr {s s' : CountMinSketch K}
    (hb : s'.hash_builders = s.hash_builders) (hw : s'.width = s.width) :
    ∀ key d, colOf s' key d = colOf s key d := by
  intro key d; simp [colOf, hb, hw]

theorem hash_with_seed_eq (s : CountMinSketch K) (key : K) {d : Nat}
    (hH : s.hash_builders.length = s.depth) (hd : d < s.depth) :
    hash_with_seed s key d = some (colOf s key d) := by
  have hlt : d < s.hash_builders.length := by omega
  simp [hash_with_seed, hd, List.getElem?_eq_getElem hlt, colOf,
    List.getD_eq_getElem?_getD, List.getElem?_eq_getElem hlt]

theorem getD_eq_getElem {α : Type} (l : List α) (dflt : α) {n : Nat}
    (h : n < l.length) : l.getD n dflt = l[n] := by
  simp [List.getD_eq_getElem?_getD, List.getElem?_eq_getElem h]

/-! ### Characterization of the store path -/

theorem storeBody_spec (s : CountMinSketch K) (key : K) {d : Nat}
    (hL : s.vec.length = s.depth)
    (hR : ∀ row ∈ s.vec, row.length = s.width)
    (hH : s.hash_builders.length = s.depth)
    (hw : 0 < s.width) (hd : d < s.depth) :
    ∃ s', storeBody s key d = some s' ∧
      s'.width = s.width ∧ s'.depth = s.depth ∧
      s'.hash_builders = s.hash_builders ∧ s'.counter = s.counter ∧
      s'.vec.length = s.vec.length ∧
      (∀ row ∈ s'.vec, row.length = s.width) ∧
      (∀ i c, cellAt s' i c =
        if i = d ∧ c = colOf s key d then satAdd (cellAt s i c) 1
        else cellAt s i c) := by
  have hdl : d < s.vec.length := by omega
  have hrowmem : s.vec[d] ∈ s.vec := List.getElem_mem hdl
  have hrl : (s.vec[d]).length = s.width := hR _ hrowmem
  have hcol : colOf s key d < (s.vec[d]).length := by
    rw [hrl]; exact colOf_lt s key d hw
  refine ⟨{ s with vec := s.vec.set d ((s.vec[d]).set (colOf s key d)
      (satAdd ((s.vec[d])[colOf s key d]) 1)) }, ?_, rfl, rfl, rfl, rfl, ?_, ?_, ?_⟩
  · simp [storeBody, hash_with_seed_eq s key hH hd,
      List.getElem?_eq_getElem hdl, List.getElem?_eq_getElem hcol]
  · simp
  · intro row hrow
    simp only at hrow
    rcases List.mem_or_eq_of_mem_set hrow with h | h
    · exact hR _ h
    · subst h; rw [List.length_set]; exact hrl
  · intro i c
    simp only [cellAt]
    by_cases hi : i = d
    · subst hi
      rw [getDl_set_self _ _ _ hdl]
      by_cases hc : c = colOf s key i
      · subst hc
        rw [getD_set_self _ _ _ hcol, if_pos ⟨rfl, rfl⟩,
          getD_eq_getElem s.vec [] hdl, getD_eq_getElem _ 0 hcol]
      · rw [getD_set_other _ _ (fun h => hc h.symm),
          if_neg (fun h => hc h.2), getD_eq_getElem s.vec [] hdl]
    · rw [getDl_set_other _ _ (fun h => hi h.symm),
        if_neg (fun h => hi h.1)]

theorem storeLoop_spec (key : K) (ds : List Nat) :
    ∀ (s : CountMinSketch K),
      s.vec.length = s.depth →
      (∀ row ∈ s.vec, row.length = s.width) →
      s.hash_builders.length = s.depth →
      0 < s.width →
      (∀ d ∈ ds, d < s.depth) → ds.Nodup →
      ∃ s', storeLoop key s ds = some s' ∧
        s'.width = s.width ∧ s'.depth = s.depth ∧
        s'.hash_builders = s.hash_builders ∧ s'.counter = s.counter ∧
        s'.vec.length = s.vec.length ∧
        (∀ row ∈ s'.vec, row.length = s.width) ∧
        (∀ i c, cellAt s' i c =
          if i ∈ ds ∧ c = colOf s key i then satAdd (cellAt s i c) 1
          else cellAt s i c) := by
  induction ds with
  | nil =>
    intro s hL hR hH hw _ _
    exact ⟨s, rfl, rfl, rfl, rfl, rfl, rfl, hR, by simp⟩
  | cons d ds ih =>
    intro s hL hR hH hw hbound hnd
    have hd : d < s.depth := hbound d (by simp)
    obtain ⟨s₁, hbody, hw₁, hd₁, hb₁, hc₁, hl₁, hr₁, hcell₁⟩ :=
      storeBody_spec s key hL hR hH hw hd
    have hcol₁ : ∀ k' i, colOf s₁ k' i = colOf s k' i := colOf_congr hb₁ hw₁
    have hnd' : ds.Nodup := (List.nodup_cons.mp hnd).2
    have hdn : d ∉ ds := (List.nodup_cons.mp hnd).1
    obtain ⟨s', hloop, hw', hd', hb', hc', hl', hr', hcell'⟩ :=
      ih s₁ (by rw [hl₁, hd₁]; exact hL) (fun r h => by rw [hw₁]; exact hr₁ r h)
        (by rw [hb₁, hd₁]; exact hH) (by rw [hw₁]; exact hw)
        (fun d' hd' => by rw [hd₁]; exact hbound d' (by simp [hd']))
        hnd'
    refine ⟨s', by simp [storeLoop, hbody, hloop], by rw [hw', hw₁],
      by rw [hd', hd₁], by rw [hb', hb₁], by rw [hc', hc₁],
      by rw [hl', hl₁], fun r h => by rw [hw₁] at hr'; exact hr' r h, ?_⟩
    intro i c
    rw [hcell' i c, hcol₁, hcell₁ i c]
    by_cases hi : i = d
    · subst hi
      have : i ∉ ds := hdn
      by_cases hc : c = colOf s key i <;> simp [this, hc]
    · by_cases hmem : i ∈ ds <;>
        by_cases hc : c = colOf s key i <;> simp [hi, hmem, hc]

theorem usizemod_pos : 0 < USIZEMOD := by unfold USIZEMOD; positivity

/-- Full behaviour of one `store` call from a well-formed state: it succeeds,
bumps the counter (wrapping at the `usize` width), adds a saturating 1 to the
cell each row hashes the key to, and leaves everything else unchanged. -/
theorem store_spec (s : CountMinSketch K) (key : K) (h : WF s) :
    ∃ s', store s key = some s' ∧ WF s' ∧
      s'.width = s.width ∧ s'.depth = s.depth ∧
      s'.hash_builders = s.hash_builders ∧
      s'.counter = (s.counter + 1) % USIZEMOD ∧
      (∀ i c, cellAt s' i c =
        if i < s.depth ∧ c = colOf s key i then satAdd (cellAt s i c) 1
        else cellAt s i c) := by
  obtain ⟨hw, hd, hL, hR, hH, hC, hc⟩ := h
  obtain ⟨s', hloop, hw', hd', hb', hc', hl', hr', hcell'⟩ :=
    storeLoop_spec key (List.range s.depth)
      { s with counter := (s.counter + 1) % USIZEMOD }
      hL hR hH hw (fun d hd => List.mem_range.mp hd) (List.nodup_range _)
  have hcells : ∀ i c, cellAt s' i c =
      if i < s.depth ∧ c = colOf s key i then satAdd (cellAt s i c) 1
      else cellAt s i c := by
    intro i c
    rw [hcell' i c]
    by_cases hmem : i < s.depth <;>
      simp [List.mem_range, hmem, cellAt, colOf]
  refine ⟨s', hloop, ?_, hw', hd', hb', hc', hcells⟩
  refine ⟨by rw [hw']; exact hw, by rw [hd']; exact hd,
    by rw [hl', hd']; exact hL, fun r hr => by rw [hw']; exact hr' r hr,
    by rw [hb', hd']; exact hH, ?_, ?_⟩
  · intro i hi j hj
    rw [hd'] at hi; rw [hw'] at hj
    rw [hcells i j]
    by_cases hcase : i < s.depth ∧ j = colOf s key i
    · rw [if_pos hcase]; exact satAdd_le_max _ _
    · rw [if_neg hcase]; exact hC i hi j hj
  · rw [hc']; exact Nat.mod_lt _ usizemod_pos

/-- Running a whole list of `store` calls from a well-formed state: every
call succeeds, the dimensions and hash builders are unchanged, and the
counter advances by the number of calls (mod the `usize` width). -/
theorem runStores_total (ks : List K) :
    ∀ s : CountMinSketch K, WF s →
      ∃ s', runStores s ks = some s' ∧ WF s' ∧
        s'.width = s.width ∧ s'.depth = s.depth ∧
        s'.hash_builders = s.hash_builders ∧
        s'.counter = (s.counter + ks.length) % USIZEMOD := by
  induction ks with
  | nil =>
    intro s h
    exact ⟨s, rfl, h, rfl, rfl, rfl, (Nat.mod_eq_of_lt h.2.2.2.2.2.2).symm⟩
  | cons k ks ih =>
    intro s h
    obtain ⟨s₁, hst, h₁, hw₁, hd₁, hb₁, hc₁, hcell₁⟩ := store_spec s k h
    obtain ⟨s', hrun, h', hw', hd', hb', hc'⟩ := ih s₁ h₁
    refine ⟨s', by simp [runStores, hst, hrun], h', by rw [hw', hw₁],
      by rw [hd', hd₁], by rw [hb', hb₁], ?_⟩
    rw [hc', hc₁, Nat.mod_add_mod, List.length_cons]
    congr 1
    omega

/-- Storing the same key `n` times: the cell each row hashes the key to ends
at exactly `min (start + n) U64MAX`, and the counter advances by `n`. -/
theorem runStores_replicate (k : K) (n : Nat) :
    ∀ s : CountMinSketch K, WF s →
      ∃ s', runStores s (List.replicate n k) = some s' ∧ WF s' ∧
        s'.width = s.width ∧ s'.depth = s.depth ∧
        s'.hash_builders = s.hash_builders ∧
        s'.counter = (s.counter + n) % USIZEMOD ∧
        (∀ d < s.depth, cellAt s' d (colOf s k d) =
          min (cellAt s d (colOf s k d) + n) U64MAX) := by
  induction n with
  | zero =>
    intro s h
    refine ⟨s, rfl, h, rfl, rfl, rfl,
      (Nat.mod_eq_of_lt h.2.2.2.2.2.2).symm, ?_⟩
    intro d hd
    have hcell : cellAt s d (colOf s k d) ≤ U64MAX :=
      h.2.2.2.2.2.1 d hd (colOf s k d) (colOf_lt s k d h.1)
    rw [Nat.add_zero]
    exact (Nat.min_eq_left hcell).symm
  | succ n ih =>
    intro s h
    obtain ⟨s₁, hst, h₁, hw₁, hd₁, hb₁, hc₁, hcell₁⟩ := store_spec s k h
    obtain ⟨s', hrun, h', hw', hd', hb', hc', hcell'⟩ := ih s₁ h₁
    have hcol : ∀ k' i, colOf s₁ k' i = colOf s k' i := colOf_congr hb₁ hw₁
    refine ⟨s', by simp [List.replicate_succ, runStores, hst, hrun], h',
      by rw [hw', hw₁], by rw [hd', hd₁], by rw [hb', hb₁], ?_, ?_⟩
    · rw [hc', hc₁, Nat.mod_add_mod]
      congr 1
      omega
    · intro d hd
      have hd₁' : d < s₁.depth := by rw [hd₁]; exact hd
      have := hcell' d hd₁'
      rw [hcol k d] at this
      rw [this, hcell₁ d (colOf s k d), if_pos ⟨hd, rfl⟩]
      simp only [satAdd]
      exact min_one_add_min _ _

/-- Lower bound on the tracked cell after an arbitrary store sequence: each
occurrence of `k` in the sequence saturating-increments the cell row `d`
hashes `k` to, and no store ever decreases it. -/
theorem runStores_count [DecidableEq K] (k : K) (ks : List K) :
    ∀ s : CountMinSketch K, WF s → ∀ s',
      runStores s ks = some s' → ∀ d, d < s.depth →
      min (cellAt s d (colOf s k d) + ks.count k) U64MAX ≤
        cellAt s' d (colOf s k d) := by
  induction ks with
  | nil =>
    intro s h s' hrun d hd
    cases hrun
    have hcell : cellAt s d (colOf s k d) ≤ U64MAX :=
      h.2.2.2.2.2.1 d hd (colOf s k d) (colOf_lt s k d h.1)
    rw [List.count_nil, Nat.add_zero]
    exact Nat.min_le_left _ _
  | cons x ks ih =>
    intro s h s' hrun d hd
    obtain ⟨s₁, hst, h₁, hw₁, hd₁, hb₁, hc₁, hcell₁⟩ := store_spec s x h
    rw [runStores, hst, Option.some_bind] at hrun
    have hd₁' : d < s₁.depth := by rw [hd₁]; exact hd
    have hIH := ih s₁ h₁ s' hrun d hd₁'
    rw [colOf_congr hb₁ hw₁ k d] at hIH
    have hcellle : cellAt s d (colOf s k d) ≤ U64MAX :=
      h.2.2.2.2.2.1 d hd (colOf s k d) (colOf_lt s k d h.1)
    by_cases hx : x = k
    · subst hx
      rw [hcell₁ d (colOf s x d), if_pos ⟨hd, rfl⟩] at hIH
      rw [List.count_cons_self]
      simp only [satAdd] at hIH
      exact le_trans (min_one_add_le _ _) hIH
    · have hcnt : (x :: ks).count k = ks.count k := by
        rw [List.count_cons]
        simp [hx]
      rw [hcnt]
      have hmono : cellAt s d (colOf s k d) ≤ cellAt s₁ d (colOf s k d) := by
        rw [hcell₁ d (colOf s k d)]
        by_cases hcase : d < s.depth ∧ colOf s k d = colOf s x d
        · rw [if_pos hcase]; exact le_satAdd_one hcellle
        · rw [if_neg hcase]
      exact le_trans (min_le_of_le hmono) hIH

/-! ### Characterization of the query path -/

theorem optionList_map_some {α : Type} (f : α → Option Nat) (g : α → Nat) :
    ∀ l : List α, (∀ a ∈ l, f a = some (g a)) →
      optionList (l.map f) = some (l.map g) := by
  intro l
  induction l with
  | nil => intro _; rfl
  | cons a l ih =>
    intro hall
    rw [List.map_cons, List.map_cons, optionList, hall a (by simp),
      ih (fun a' ha' => hall a' (by simp [ha']))]
    rfl

theorem queryCell_eq (s : CountMinSketch K) (key : K) {d : Nat}
    (hL : s.vec.length = s.depth)
    (hR : ∀ row ∈ s.vec, row.length = s.width)
    (hH : s.hash_builders.length = s.depth)
    (hw : 0 < s.width) (hd : d < s.depth) :
    queryCell s key d = some (cellAt s d (colOf s key d)) := by
  have hdl : d < s.vec.length := by omega
  have hrl : (s.vec[d]).length = s.width := hR _ (List.getElem_mem hdl)
  have hcol : colOf s key d < (s.vec[d]).length := by
    rw [hrl]; exact colOf_lt s key d hw
  rw [queryCell, List.getElem?_eq_getElem hdl, hash_with_seed_eq s key hH hd]
  simp only [Option.some_bind]
  rw [List.getElem?_eq_getElem hcol, cellAt, getD_eq_getElem s.vec [] hdl,
    getD_eq_getElem _ 0 hcol]

theorem foldl_min_facts :
    ∀ (l : List Nat) (a : Nat),
      l.foldl min a ≤ a ∧ (∀ x ∈ l, l.foldl min a ≤ x) ∧
      (l.foldl min a = a ∨ l.foldl min a ∈ l) := by
  intro l
  induction l with
  | nil => intro a; exact ⟨le_refl a, by simp, Or.inl rfl⟩
  | cons b l ih =>
    intro a
    obtain ⟨h1, h2, h3⟩ := ih (min a b)
    refine ⟨le_trans h1 (min_le_left a b), ?_, ?_⟩
    · intro x hx
      rcases List.mem_cons.mp hx with hx | hx
      · subst hx; exact le_trans h1 (min_le_right a x)
      · exact h2 x hx
    · rcases h3 with h3 | h3
      · rcases min_choice a b with hm | hm
        · exact Or.inl (by rw [List.foldl_cons, h3, hm])
        · exact Or.inr (by rw [List.foldl_cons, h3, hm]; simp)
      · exact Or.inr (by simp [h3])

theorem iterMin_spec (l : List Nat) (hne : l ≠ []) :
    ∃ v, iterMin l = some v ∧ v ∈ l ∧ ∀ x ∈ l, v ≤ x := by
  match l, hne with
  | v :: vs, _ =>
    obtain ⟨h1, h2, h3⟩ := foldl_min_facts vs v
    refine ⟨vs.foldl min v, rfl, ?_, ?_⟩
    · rcases h3 with h | h
      · simp [h]
      · simp [h]
    · intro x hx
      rcases List.mem_cons.mp hx with hx | hx
      · subst hx; exact h1
      · exact h2 x hx

/-- From a well-formed state `query` succeeds and returns the least of the
cells the key hashes to, one per row. -/
theorem query_min_spec (s : CountMinSketch K) (key : K) (h : WF s) :
    ∃ v, query s key = some v ∧
      (∀ d < s.depth, v ≤ cellAt s d (colOf s key d)) ∧
      (∃ d, d < s.depth ∧ v = cellAt s d (colOf s key d)) := by
  obtain ⟨hw, hd, hL, hR, hH, _, _⟩ := h
  have hcells : optionList ((List.range s.depth).map (queryCell s key)) =
      some ((List.range s.depth).map
        (fun d => cellAt s d (colOf s key d))) :=
    optionList_map_some _ _ _
      (fun d hdm => queryCell_eq s key hL hR hH hw (List.mem_range.mp hdm))
  have hne : (List.range s.depth).map
      (fun d => cellAt s d (colOf s key d)) ≠ [] := by
    apply List.length_pos.mp
    simp
    omega
  obtain ⟨v, hmin, hmem, hle⟩ := iterMin_spec _ hne
  refine ⟨v, ?_, ?_, ?_⟩
  · rw [query, hcells, Option.some_bind, hmin]
  · intro d hdlt
    exact hle _ (List.mem_map_of_mem _ (List.mem_range.mpr hdlt))
  · obtain ⟨d, hdm, hv⟩ := List.mem_map.mp hmem
    exact ⟨d, List.mem_range.mp hdm, hv.symm⟩

/-! ### The freshly constructed sketch -/

theorem cellAt_new (w d : {n : Nat // 0 < n}) (rs : Nat → K → Nat)
    (i c : Nat) : cellAt (new w d rs) i c = 0 := by
  simp only [cellAt, new, List.getD_eq_getElem?_getD, List.getElem?_replicate]
  by_cases hi : i < d.1
  · simp only [hi, if_true, Option.getD_some]
    by_cases hc : c < w.1 <;> simp [hc]
  · simp [hi]

theorem WF_new (w d : {n : Nat // 0 < n}) (rs : Nat → K → Nat) :
    WF (new (K := K) w d rs) := by
  refine ⟨w.2, d.2, by simp [new], ?_, by simp [new], ?_, ?_⟩
  · intro row hrow
    rw [List.eq_of_mem_replicate hrow]
    simp [new]
  · intro i _ j _
    rw [cellAt_new]
    simp [U64MAX]
  · simp [new, usizemod_pos]

/-- Storing one key `n` times into a fresh sketch: no call panics, every cell
the key hashes to ends at `min n U64MAX`, `query` returns `min n U64MAX`, and
the total counter shows `n` modulo the `usize` width. -/
theorem fresh_replicate (w d : {n : Nat // 0 < n}) (rs : Nat → K → Nat)
    (k : K) (n : Nat) :
    ∃ s', runStores (new w d rs) (List.replicate n k) = some s' ∧ WF s' ∧
      s'.depth = d.1 ∧ s'.width = w.1 ∧
      query s' k = some (min n U64MAX) ∧
      total_count s' = n % USIZEMOD ∧
      (∀ i < d.1, cellAt s' i (colOf s' k i) = min n U64MAX) := by
  obtain ⟨s', hrun, h', hw', hd', hb', hc', hcell'⟩ :=
    runStores_replicate k n (new w d rs) (WF_new w d rs)
  have hcol : ∀ k' i, colOf s' k' i = colOf (new w d rs) k' i :=
    colOf_congr hb' hw'
  have hdepth : s'.depth = d.1 := hd'
  have hwidth : s'.width = w.1 := hw'
  have hcells : ∀ i < d.1, cellAt s' i (colOf s' k i) = min n U64MAX := by
    intro i hi
    rw [hcol k i]
    have := hcell' i hi
    rw [cellAt_new, Nat.zero_add] at this
    exact this
  have hquery : query s' k = some (min n U64MAX) := by
    obtain ⟨v, hq, hle, ⟨i, hi, hv⟩⟩ := query_min_spec s' k h'
    have : v = min n U64MAX := by
      rw [hv]
      exact hcells i (by rw [hdepth] at hi; exact hi)
    rw [hq, this]
  refine ⟨s', hrun, h', hdepth, hwidth, hquery, ?_, hcells⟩
  rw [total_count, hc']
  simp [new]

/-! ### The concurrent store path (modelled from the spec) -/

theorem applyAction_fields (s : CountMinSketch K) (a : AtomicAction) :
    (applyAction s a).width = s.width ∧ (applyAction s a).depth = s.depth ∧
    (applyAction s a).hash_builders = s.hash_builders := by
  cases a <;> exact ⟨rfl, rfl, rfl⟩

theorem applyAction_vec_length (s : CountMinSketch K) (a : AtomicAction) :
    (applyAction s a).vec.length = s.vec.length := by
  cases a with
  | incTotal => rfl
  | incCell d c => simp [applyAction]

theorem applyAction_rowlen (s : CountMinSketch K) (a : AtomicAction)
    {d : Nat} (hdl : d < s.vec.length) :
    ((applyAction s a).vec.getD d []).length = (s.vec.getD d []).length := by
  cases a with
  | incTotal => rfl
  | incCell d' c' =>
    simp only [applyAction]
    by_cases hd : d' = d
    · subst hd
      rw [getDl_set_self _ _ _ hdl, List.length_set]
    · rw [getDl_set_other _ _ hd]

theorem applyAction_incCell_cell_self (s : CountMinSketch K) {d c : Nat}
    (hdl : d < s.vec.length) (hc : c < (s.vec.getD d []).length) :
    cellAt (applyAction s (AtomicAction.incCell d c)) d c =
      satAdd (cellAt s d c) 1 := by
  simp only [applyAction, cellAt]
  rw [getDl_set_self _ _ _ hdl, getD_set_self _ _ _ hc]

theorem applyAction_incCell_cell_other (s : CountMinSketch K)
    (d' c' i j : Nat) (h : ¬(i = d' ∧ j = c')) :
    cellAt (applyAction s (AtomicAction.incCell d' c')) i j =
      cellAt s i j := by
  simp only [applyAction, cellAt]
  by_cases hi : d' = i
  · subst hi
    have hj : c' ≠ j := fun hj => h ⟨rfl, hj.symm⟩
    by_cases hdl : d' < s.vec.length
    · rw [getDl_set_self _ _ _ hdl, getD_set_other _ _ hj]
    · rw [List.getD_eq_getElem?_getD (s.vec.set d' _), List.getElem?_set,
        List.getD_eq_getElem?_getD s.vec,
        List.getElem?_eq_none (Nat.le_of_not_lt hdl)]
      simp [hdl]
  · rw [getDl_set_other _ _ hi]

theorem foldl_cell (A : List AtomicAction) :
    ∀ (s : CountMinSketch K) (d c : Nat),
      d < s.vec.length → c < (s.vec.getD d []).length →
      cellAt s d c ≤ U64MAX →
      cellAt (A.foldl applyAction s) d c =
        min (cellAt s d c + A.count (AtomicAction.incCell d c)) U64MAX := by
  induction A with
  | nil =>
    intro s d c _ _ hbound
    rw [List.foldl_nil, List.count_nil, Nat.add_zero]
    exact (Nat.min_eq_left hbound).symm
  | cons a A ih =>
    intro s d c hdl hcl hbound
    rw [List.foldl_cons]
    by_cases ha : a = AtomicAction.incCell d c
    · subst ha
      have h1 : cellAt (applyAction s (AtomicAction.incCell d c)) d c =
          satAdd (cellAt s d c) 1 :=
        applyAction_incCell_cell_self s hdl hcl
      rw [ih (applyAction s (AtomicAction.incCell d c)) d c
          (by rw [applyAction_vec_length]; exact hdl)
          (by rw [applyAction_rowlen s _ hdl]; exact hcl)
          (by rw [h1]; exact satAdd_le_max _ _),
        h1, List.count_cons_self]
      simp only [satAdd]
      exact min_one_add_min _ _
    · have h1 : cellAt (applyAction s a) d c = cellAt s d c := by
        cases a with
        | incTotal => rfl
        | incCell d' c' =>
          apply applyAction_incCell_cell_other
          rintro ⟨rfl, rfl⟩
          exact ha rfl
      have hcnt : (a :: A).count (AtomicAction.incCell d c) =
          A.count (AtomicAction.incCell d c) := by
        rw [List.count_cons]
        simp [ha]
      rw [ih (applyAction s a) d c
          (by rw [applyAction_vec_length]; exact hdl)
          (by rw [applyAction_rowlen s a hdl]; exact hcl)
          (by rw [h1]; exact hbound),
        h1, hcnt]

theorem foldl_counter (A : List AtomicAction) :
    ∀ s : CountMinSketch K, s.counter < USIZEMOD →
      (A.foldl applyAction s).counter =
        (s.counter + A.count AtomicAction.incTotal) % USIZEMOD := by
  induction A with
  | nil =>
    intro s h
    rw [List.foldl_nil, List.count_nil, Nat.add_zero, Nat.mod_eq_of_lt h]
  | cons a A ih =>
    intro s h
    rw [List.foldl_cons]
    cases a with
    | incTotal =>
      have hstep : (applyAction s AtomicAction.incTotal).counter =
          (s.counter + 1) % USIZEMOD := rfl
      rw [List.count_cons_self,
        ih _ (by rw [hstep]; exact Nat.mod_lt _ usizemod_pos), hstep,
        Nat.mod_add_mod]
      congr 1
      omega
    | incCell d c =>
      have hstep : (applyAction s (AtomicAction.incCell d c)).counter =
          s.counter := rfl
      have hcnt : (AtomicAction.incCell d c :: A).count
          AtomicAction.incTotal = A.count AtomicAction.incTotal := by
        rw [List.count_cons]
        simp
      rw [ih _ (by rw [hstep]; exact h), hstep, hcnt]

theorem actionWF_of_eq {s t : CountMinSketch K} (hw : t.width = s.width)
    (hd : t.depth = s.depth) (a : AtomicAction) (h : actionWF s a) :
    actionWF t a := by
  cases a with
  | incCell d c => exact ⟨by rw [hd]; exact h.1, by rw [hw]; exact h.2⟩
  | incTotal => trivial

theorem applyAction_WF (s : CountMinSketch K) (a : AtomicAction)
    (h : WF s) (ha : actionWF s a) : WF (applyAction s a) := by
  obtain ⟨hw, hd, hL, hR, hH, hC, hc⟩ := h
  cases a with
  | incTotal =>
    exact ⟨hw, hd, hL, hR, hH, hC, Nat.mod_lt _ usizemod_pos⟩
  | incCell d c =>
    obtain ⟨hdd, hcc⟩ := ha
    have hdl : d < s.vec.length := by omega
    have hrowl : (s.vec.getD d []).length = s.width := by
      rw [getD_eq_getElem s.vec [] hdl]
      exact hR _ (List.getElem_mem hdl)
    refine ⟨hw, hd, by simp [applyAction, hL], ?_, hH, ?_, hc⟩
    · intro row hrow
      simp only [applyAction] at hrow
      rcases List.mem_or_eq_of_mem_set hrow with hmem | heq
      · exact hR _ hmem
      · subst heq
        rw [List.length_set]
        exact hrowl
    · intro i hi j hj
      by_cases hij : i = d ∧ j = c
      · obtain ⟨rfl, rfl⟩ := hij
        rw [applyAction_incCell_cell_self s hdl (by rw [hrowl]; exact hcc)]
        exact satAdd_le_max _ _
      · rw [applyAction_incCell_cell_other s d c i j hij]
        exact hC i hi j hj

theorem foldl_WF (A : List AtomicAction) :
    ∀ s : CountMinSketch K, WF s → (∀ a ∈ A, actionWF s a) →
      WF (A.foldl applyAction s) := by
  induction A with
  | nil => intro s h _; exact h
  | cons a A ih =>
    intro s h hall
    rw [List.foldl_cons]
    apply ih _ (applyAction_WF s a h (hall a (by simp)))
    intro a' ha'
    exact actionWF_of_eq (applyAction_fields s a).1
      (applyAction_fields s a).2.1 a' (hall a' (by simp [ha']))

theorem foldl_fields (A : List AtomicAction) :
    ∀ s : CountMinSketch K,
      (A.foldl applyAction s).width = s.width ∧
      (A.foldl applyAction s).depth = s.depth ∧
      (A.foldl applyAction s).hash_builders = s.hash_builders := by
  induction A with
  | nil => intro s; exact ⟨rfl, rfl, rfl⟩
  | cons a A ih =>
    intro s
    rw [List.foldl_cons]
    obtain ⟨h1, h2, h3⟩ := ih (applyAction s a)
    obtain ⟨g1, g2, g3⟩ := applyAction_fields s a
    exact ⟨h1.trans g1, h2.trans g2, h3.trans g3⟩

theorem count_incTotal_storeActions (s : CountMinSketch K) (k : K) :
    (storeActions s k).count AtomicAction.incTotal = 1 := by
  rw [storeActions, List.count_cons_self]
  have h0 : ((List.range s.depth).map
      fun d => AtomicAction.incCell d (colOf s k d)).count
        AtomicAction.incTotal = 0 := by
    rw [List.count_eq_zero]
    intro hmem
    obtain ⟨d, _, hd⟩ := List.mem_map.mp hmem
    cases hd
  rw [h0]

theorem count_incTotal_actionsOf (s : CountMinSketch K) :
    ∀ ks : List K,
      (actionsOf s ks).count AtomicAction.incTotal = ks.length := by
  intro ks
  induction ks with
  | nil => rfl
  | cons k ks ih =>
    rw [actionsOf, List.map_cons, List.flatten_cons, List.count_append]
    rw [show ((ks.map (storeActions s)).flatten) = actionsOf s ks from rfl,
      ih, count_incTotal_storeActions, List.length_cons]
    omega

theorem count_map_incCell (g : Nat → Nat) :
    ∀ l : List Nat, l.Nodup → ∀ i ∈ l,
      ((l.map fun j => AtomicAction.incCell j (g j)).count
        (AtomicAction.incCell i (g i))) = 1 := by
  intro l
  induction l with
  | nil => intro _ i hi; cases hi
  | cons j l ih =>
    intro hnd i hi
    rw [List.map_cons]
    rcases List.mem_cons.mp hi with rfl | hmem
    · have h0 : (l.map fun j' => AtomicAction.incCell j' (g j')).count
          (AtomicAction.incCell i (g i)) = 0 := by
        rw [List.count_eq_zero]
        intro hmem'
        obtain ⟨j', hj', heq⟩ := List.mem_map.mp hmem'
        have : j' = i := by injection heq
        subst this
        exact (List.nodup_cons.mp hnd).1 hj'
      rw [List.count_cons_self, h0]
    · have hji : j ≠ i := fun h => (List.nodup_cons.mp hnd).1 (h ▸ hmem)
      rw [List.count_cons]
      have hne : AtomicAction.incCell j (g j) ≠
          AtomicAction.incCell i (g i) := by
        intro heq
        have : j = i := by injection heq
        exact hji this
      simp only [hne, beq_iff_eq, if_false]
      rw [ih (List.nodup_cons.mp hnd).2 i hmem]

theorem count_incCell_storeActions (s : CountMinSketch K) (k : K) {i : Nat}
    (hi : i < s.depth) :
    (storeActions s k).count (AtomicAction.incCell i (colOf s k i)) = 1 := by
  rw [storeActions, List.count_cons]
  have hne : AtomicAction.incTotal ≠
      AtomicAction.incCell i (colOf s k i) := by simp
  simp only [hne, beq_iff_eq, if_false]
  rw [count_map_incCell (colOf s k) (List.range s.depth)
    (List.nodup_range _) i (List.mem_range.mpr hi)]

theorem count_incCell_actionsOf_replicate (s : CountMinSketch K) (k : K)
    {i : Nat} (hi : i < s.depth) (N : Nat) :
    (actionsOf s (List.replicate N k)).count
      (AtomicAction.incCell i (colOf s k i)) = N := by
  induction N with
  | zero => rfl
  | succ N ih =>
    rw [List.replicate_succ, actionsOf, List.map_cons, List.flatten_cons,
      List.count_append,
      show (((List.replicate N k).map (storeActions s)).flatten) =
        actionsOf s (List.replicate N k) from rfl,
      ih, count_incCell_storeActions s k hi]
    omega

theorem actionsOf_WF (s : CountMinSketch K) (hw : 0 < s.width)
    (ks : List K) : ∀ a ∈ actionsOf s ks, actionWF s a := by
  intro a ha
  rw [actionsOf] at ha
  obtain ⟨l, hl, hal⟩ := List.mem_flatten.mp ha
  obtain ⟨k, _, rfl⟩ := List.mem_map.mp hl
  rw [storeActions] at hal
  rcases List.mem_cons.mp hal with rfl | hmem
  · trivial
  · obtain ⟨dd, hd, rfl⟩ := List.mem_map.mp hmem
    exact ⟨List.mem_range.mp hd, colOf_lt s k dd hw⟩

theorem u64max_lt_usizemod : U64MAX < USIZEMOD := by
  unfold U64MAX USIZEMOD
  omega

/-! ### Claims -/

/-- C2: for every (well-formed) sketch state and every key, `query(key)`
returns the minimum, over all `depth` rows, of the counter cell at the
column obtained by hashing the key with that row's hash function reduced
modulo `width`: the returned value is a lower bound of every row's cell and
is attained at some row. -/
theorem claim2_query_row_minimum (s : CountMinSketch K) (key : K)
    (h : WF s) :
    ∃ v, query s key = some v ∧
      (∀ i < s.depth, v ≤ cellAt s i (colOf s key i)) ∧
      (∃ i, i < s.depth ∧ v = cellAt s i (colOf s key i)) :=
  query_min_spec s key h

/-- C2 witness: the row-minimum description of `query` at a concrete
well-formed sketch. -/
theorem claim2_witness :
    WF cms11 ∧
    ∃ v, query cms11 0 = some v ∧
      (∀ i < cms11.depth, v ≤ cellAt cms11 i (colOf cms11 0 i)) ∧
      (∃ i, i < cms11.depth ∧ v = cellAt cms11 i (colOf cms11 0 i)) :=
  ⟨by decide, claim2_query_row_minimum cms11 0 (by decide)⟩

/-- C3: construction rejects non-positive dimensions — `new(0, d)` and
`new(w, 0)` fail (the `NonZeroUsize` conversion is `none`, which is the
`InvalidDimension` condition), and every successfully constructed sketch has
positive width and depth and is well-formed, so nothing is deferred to first
use. -/
theorem claim3_construction_rejects_zero (w dd : Nat) (rs : Nat → K → Nat) :
    ((w = 0 ∨ dd = 0) → new_checked w dd rs = none) ∧
    (0 < w → 0 < dd → ∃ s, new_checked w dd rs = some s ∧
      0 < s.width ∧ 0 < s.depth ∧ WF s) := by
  constructor
  · rintro (h | h) <;> subst h
    · simp [new_checked, nonZeroUsize]
    · cases hnz : nonZeroUsize w with
      | none => simp [new_checked, hnz]
      | some wz => simp [new_checked, hnz, nonZeroUsize]
  · intro hw hd
    refine ⟨new ⟨w, hw⟩ ⟨dd, hd⟩ rs, ?_, hw, hd, WF_new _ _ _⟩
    simp [new_checked, nonZeroUsize, hw, hd]

/-- C3 witness: a zero width is rejected; positive dimensions construct a
well-formed sketch. -/
theorem claim3_witness :
    new_checked 0 5 zeroHash = none ∧
    ∃ s, new_checked 2 3 zeroHash = some s ∧
      0 < s.width ∧ 0 < s.depth ∧ WF s :=
  ⟨(claim3_construction_rejects_zero 0 5 zeroHash).1 (Or.inl rfl),
   (claim3_construction_rejects_zero 2 3 zeroHash).2 (by decide) (by decide)⟩

/-- C5: zero state at construction — immediately after `new(width, depth)`
and before any store, `query(k) = 0` for every key, `total_stores() = 0`,
and every counter cell is zero. -/
theorem claim5_zero_state (w d : {n : Nat // 0 < n}) (rs : Nat → K → Nat)
    (k : K) :
    query (new w d rs) k = some 0 ∧ total_count (new w d rs) = 0 ∧
    (∀ i c, cellAt (new w d rs) i c = 0) := by
  refine ⟨?_, rfl, fun i c => cellAt_new w d rs i c⟩
  obtain ⟨v, hq, hle, ⟨i, hi, hv⟩⟩ :=
    query_min_spec (new w d rs) k (WF_new w d rs)
  rw [hq, hv, cellAt_new]

/-- C10: query and store never panic — from any state reached by a sequence
of stores on a freshly constructed sketch, `hash_with_seed` returns a column
strictly below `width` for every row index below `depth` (so its assertion
and every indexing and unwrap in the store and query paths succeed), and
`store` and `query` both return a value. -/
theorem claim10_no_panic (w d : {n : Nat // 0 < n}) (rs : Nat → K → Nat)
    (ks : List K) (key : K) :
    ∃ s, runStores (new w d rs) ks = some s ∧ WF s ∧
      (∀ i < s.depth, ∃ col, hash_with_seed s key i = some col ∧
        col < s.width) ∧
      (∃ s', store s key = some s') ∧
      (∃ v, query s key = some v) := by
  obtain ⟨s, hrun, h, _, _, _, _⟩ :=
    runStores_total ks (new w d rs) (WF_new w d rs)
  refine ⟨s, hrun, h, ?_, ?_, ?_⟩
  · intro i hi
    exact ⟨colOf s key i, hash_with_seed_eq s key h.2.2.2.2.1 hi,
      colOf_lt s key i h.1⟩
  · obtain ⟨s', hst, _⟩ := store_spec s key h
    exact ⟨s', hst⟩
  · obtain ⟨v, hq, _⟩ := query_min_spec s key h
    exact ⟨v, hq⟩

/-- C1 counterexample: on a 1×1 sketch, storing key 0 exactly `2^64` times
saturates the single cell at `u64::MAX`, so `query` returns a value strictly
below the number of times the key was stored — the claim as stated fails. -/
theorem claim1_counterexample :
    ∃ s', runStores cms11 (List.replicate (2 ^ 64) 0) = some s' ∧
      ∃ v, query s' 0 = some v ∧
        v < (List.replicate (2 ^ 64) (0 : Nat)).count 0 := by
  obtain ⟨s', hrun, _, _, _, hq, _, _⟩ :=
    fresh_replicate onePos onePos zeroHash (0 : Nat) (2 ^ 64)
  refine ⟨s', hrun, min (2 ^ 64) U64MAX, hq, ?_⟩
  rw [List.count_replicate]
  simp only [U64MAX]
  norm_num

/-- C1 (amended): no false negatives up to counter saturation — after any
sequence of stores on a fresh sketch, `query(k)` is at least
`min (count of k) (2^64 - 1)`; in particular it is at least the number of
times `k` was stored whenever that number fits in the `u64` cells. -/
theorem claim1_amended [DecidableEq K] (w d : {n : Nat // 0 < n})
    (rs : Nat → K → Nat) (ks : List K) (k : K) :
    ∃ s' v, runStores (new w d rs) ks = some s' ∧ query s' k = some v ∧
      min (ks.count k) U64MAX ≤ v := by
  obtain ⟨s', hrun, h', hw', hd', hb', _⟩ :=
    runStores_total ks (new w d rs) (WF_new w d rs)
  obtain ⟨v, hq, hle, ⟨i, hi, hv⟩⟩ := query_min_spec s' k h'
  have hidep : i < (new w d rs).depth := by rw [hd'] at hi; exact hi
  have hcnt := runStores_count k ks (new w d rs) (WF_new w d rs) s' hrun i hidep
  rw [cellAt_new, Nat.zero_add] at hcnt
  have hcol : colOf s' k i = colOf (new w d rs) k i := colOf_congr hb' hw' k i
  refine ⟨s', v, hrun, hq, ?_⟩
  rw [hv, hcol]
  exact hcnt

/-- C4 counterexample: `2^64` store calls on a fresh sketch wrap the `usize`
call counter, so `total_stores()` reports 0, not `2^64` — the claim as
stated fails at that length. -/
theorem claim4_counterexample :
    ∃ s', runStores cms11 (List.replicate (2 ^ 64) 0) = some s' ∧
      total_count s' = 0 ∧
      (List.replicate (2 ^ 64) (0 : Nat)).length = 2 ^ 64 ∧
      (0 : Nat) ≠ 2 ^ 64 := by
  obtain ⟨s', hrun, _, _, _, _, htot, _⟩ :=
    fresh_replicate onePos onePos zeroHash (0 : Nat) (2 ^ 64)
  refine ⟨s', hrun, ?_, List.length_replicate _ _, by positivity⟩
  rw [htot]
  simp [USIZEMOD]

/-- C4 (amended): after any sequence of `n` store calls on a fresh sketch
(any keys, any duplicates), `total_stores()` returns `n` reduced modulo
`2^64` (the `usize` width) — hence exactly `n` whenever `n < 2^64` —
independent of key identity. -/
theorem claim4_amended (w d : {n : Nat // 0 < n}) (rs : Nat → K → Nat)
    (ks : List K) :
    ∃ s', runStores (new w d rs) ks = some s' ∧
      total_count s' = ks.length % USIZEMOD := by
  obtain ⟨s', hrun, _, _, _, _, hc'⟩ :=
    runStores_total ks (new w d rs) (WF_new w d rs)
  refine ⟨s', hrun, ?_⟩
  rw [total_count, hc']
  simp [new]

/-- C6: saturation, not overflow — storing a key `n` times into a fresh
sketch never panics, drives every cell the key hashes to exactly to
`min n (2^64 - 1)` (so a cell never wraps to a smaller number and stops at
the maximum once reached), and `query` then returns `min n (2^64 - 1)`,
which is the maximum representable value whenever `n` is at least it. -/
theorem claim6_saturation_not_overflow (w d : {n : Nat // 0 < n})
    (rs : Nat → K → Nat) (k : K) (n : Nat) :
    ∃ s', runStores (new w d rs) (List.replicate n k) = some s' ∧ WF s' ∧
      query s' k = some (min n U64MAX) ∧
      (∀ i < d.1, cellAt s' i (colOf s' k i) = min n U64MAX) := by
  obtain ⟨s', hrun, h', _, _, hq, _, hcells⟩ := fresh_replicate w d rs k n
  exact ⟨s', hrun, h', hq, hcells⟩

/-- C7 counterexample: on a 1×1 sketch whose cell was driven to `u64::MAX`
by `2^64 - 1` stores of key 0, one further store leaves `query` at
`u64::MAX`, which is strictly below the previous result plus 1 — the
"result after `n` stores ≥ result before plus `n`" part of the claim fails
once a cell saturates. -/
theorem claim7_counterexample :
    ∃ s s', runStores cms11 (List.replicate U64MAX 0) = some s ∧
      query s 0 = some U64MAX ∧
      runStores s (List.replicate 1 0) = some s' ∧
      query s' 0 = some U64MAX ∧
      ¬ U64MAX + 1 ≤ U64MAX := by
  obtain ⟨s, hrun, hWF, hdep, _, hq, _, hcells⟩ :=
    fresh_replicate onePos onePos zeroHash (0 : Nat) U64MAX
  have hqs : query s 0 = some U64MAX := by rw [hq, Nat.min_self]
  obtain ⟨s', hrun2, hWF', hw', hd', hb', _, hcell'⟩ :=
    runStores_replicate (0 : Nat) 1 s hWF
  have hcol' : ∀ k' i, colOf s' k' i = colOf s k' i := colOf_congr hb' hw'
  have hcells' : ∀ i < s'.depth, cellAt s' i (colOf s' 0 i) = U64MAX := by
    intro i hi
    have hi2 : i < s.depth := by rw [hd'] at hi; exact hi
    rw [hcol', hcell' i hi2]
    have hci : cellAt s i (colOf s 0 i) = U64MAX := by
      have := hcells i (by rw [hdep] at hi2; exact hi2)
      rw [Nat.min_self] at this
      exact this
    rw [hci]
    omega
  obtain ⟨v, hq', _, ⟨i, hi, hv⟩⟩ := query_min_spec s' 0 hWF'
  have hvmax : v = U64MAX := by rw [hv]; exact hcells' i hi
  exact ⟨s, s', hrun, hqs, hrun2, by rw [hq', hvmax], by omega⟩

/-- C7 (amended): monotone up to saturation — from any well-formed state,
`n` further stores of `k` never decrease a later `query(k)` result, and the
result after the `n` stores is at least `min (before + n) (2^64 - 1)`, i.e.
at least `before + n` until the cells saturate. -/
theorem claim7_amended (s : CountMinSketch K) (k : K) (n : Nat)
    (h : WF s) :
    ∃ v s' v', query s k = some v ∧
      runStores s (List.replicate n k) = some s' ∧ query s' k = some v' ∧
      v ≤ v' ∧ min (v + n) U64MAX ≤ v' := by
  obtain ⟨v, hq, hle, _⟩ := query_min_spec s k h
  obtain ⟨s', hrun, h', hw', hd', hb', _, hcell'⟩ :=
    runStores_replicate k n s h
  obtain ⟨v', hq', _, ⟨i, hi, hv⟩⟩ := query_min_spec s' k h'
  have hidep : i < s.depth := by rw [hd'] at hi; exact hi
  have hcol : colOf s' k i = colOf s k i := colOf_congr hb' hw' k i
  have hvcell : v' = min (cellAt s i (colOf s k i) + n) U64MAX := by
    rw [hv, hcol, hcell' i hidep]
  have hcellle : cellAt s i (colOf s k i) ≤ U64MAX :=
    h.2.2.2.2.2.1 i hidep _ (colOf_lt s k i h.1)
  have hvle : v ≤ cellAt s i (colOf s k i) := hle i hidep
  refine ⟨v, s', v', hq, hrun, hq', by omega, by omega⟩

/-- C7 witness: the amended monotonicity bound at a concrete sketch. -/
theorem claim7_witness :
    WF cms11 ∧
    ∃ v s' v', query cms11 0 = some v ∧
      runStores cms11 (List.replicate 2 0) = some s' ∧
      query s' 0 = some v' ∧ v ≤ v' ∧ min (v + 2) U64MAX ≤ v' :=
  ⟨by decide, claim7_amended cms11 0 2 (by decide)⟩

/-- C8 counterexample: from the (reachable) state whose `usize` counter
holds `2^64 - 1`, one further store wraps `total_stores()` to 0 instead of
incrementing it by 1 — the "increments the total-stores counter by 1" part
of the claim fails at the `usize` boundary. -/
theorem claim8_counterexample :
    ∃ s, runStores cms11 (List.replicate U64MAX 0) = some s ∧
      total_count s = U64MAX ∧
      ∃ s₁, store s 0 = some s₁ ∧ total_count s₁ = 0 ∧
        total_count s₁ ≠ total_count s + 1 := by
  obtain ⟨s, hrun, hWF, _, _, _, htot, _⟩ :=
    fresh_replicate onePos onePos zeroHash (0 : Nat) U64MAX
  have htot' : total_count s = U64MAX := by
    rw [htot]
    apply Nat.mod_eq_of_lt
    decide
  obtain ⟨s₁, hst, _, _, _, _, hc₁, _⟩ := store_spec s 0 hWF
  have h0 : total_count s₁ = 0 := by
    show s₁.counter = 0
    rw [hc₁]
    have hsc : s.counter = U64MAX := htot'
    rw [hsc]
    decide
  refine ⟨s, hrun, htot', s₁, hst, h0, ?_⟩
  rw [h0, htot']
  decide

/-- C8 (amended): frame of `store` — a single `store(key)` call succeeds,
saturating-increments exactly the cell at each row's hashed column by 1,
leaves every other cell and the width, depth and row hash functions
unchanged, and advances the total-stores counter by 1 modulo `2^64` (the
`usize` width), i.e. by exactly 1 until the counter itself wraps. -/
theorem claim8_amended (s : CountMinSketch K) (key : K) (h : WF s) :
    ∃ s', store s key = some s' ∧
      s'.width = s.width ∧ s'.depth = s.depth ∧
      s'.hash_builders = s.hash_builders ∧
      total_count s' = (total_count s + 1) % USIZEMOD ∧
      (∀ i < s.depth, cellAt s' i (colOf s key i) =
        satAdd (cellAt s i (colOf s key i)) 1) ∧
      (∀ i c, (i < s.depth → c ≠ colOf s key i) →
        cellAt s' i c = cellAt s i c) := by
  obtain ⟨s', hst, _, hw', hd', hb', hc', hcell'⟩ := store_spec s key h
  refine ⟨s', hst, hw', hd', hb', hc', ?_, ?_⟩
  · intro i hi
    rw [hcell' i (colOf s key i), if_pos ⟨hi, rfl⟩]
  · intro i c hcond
    rw [hcell' i c, if_neg ?_]
    rintro ⟨h1, h2⟩
    exact hcond h1 h2

/-- C8 witness: the frame description of one `store` at a concrete
sketch. -/
theorem claim8_witness :
    WF cms11 ∧
    ∃ s', store cms11 0 = some s' ∧
      s'.width = cms11.width ∧ s'.depth = cms11.depth ∧
      s'.hash_builders = cms11.hash_builders ∧
      total_count s' = (total_count cms11 + 1) % USIZEMOD ∧
      (∀ i < cms11.depth, cellAt s' i (colOf cms11 0 i) =
        satAdd (cellAt cms11 i (colOf cms11 0 i)) 1) ∧
      (∀ i c, (i < cms11.depth → c ≠ colOf cms11 0 i) →
        cellAt s' i c = cellAt cms11 i c) :=
  ⟨by decide, claim8_amended cms11 0 (by decide)⟩

/-- C9 counterexample: the claim as stated fails at `N = 2^64` — executing
`2^64` same-key `store_parallel` calls against a fresh 1×1 sketch in one
concrete interleaving (the identity permutation of their atomic actions)
wraps the atomic `usize` total counter to `0 ≠ N` and saturates the `u64`
cell, so `query(key)` returns `2^64 - 1 < N`. -/
theorem claim9_counterexample :
    ∃ v,
      query ((actionsOf cms11 (List.replicate (2 ^ 64) 0)).foldl
        applyAction cms11) 0 = some v ∧
      total_count ((actionsOf cms11 (List.replicate (2 ^ 64) 0)).foldl
        applyAction cms11) = 0 ∧
      (List.replicate (2 ^ 64) (0 : Nat)).length = 2 ^ 64 ∧
      v < 2 ^ 64 ∧ (0 : Nat) ≠ 2 ^ 64 := by
  have hWF0 : WF cms11 := WF_new onePos onePos zeroHash
  have hWFfin : WF ((actionsOf cms11 (List.replicate (2 ^ 64) 0)).foldl
      applyAction cms11) :=
    foldl_WF _ cms11 hWF0
      (fun a ha => actionsOf_WF cms11 hWF0.1 _ a ha)
  obtain ⟨hwfin, hdfin, hbfin⟩ :=
    foldl_fields (actionsOf cms11 (List.replicate (2 ^ 64) 0)) cms11
  obtain ⟨v, hq, _, ⟨i, hi, hv⟩⟩ := query_min_spec _ 0 hWFfin
  have hidep : i < cms11.depth := by rw [hdfin] at hi; exact hi
  have hcol : colOf ((actionsOf cms11 (List.replicate (2 ^ 64) 0)).foldl
      applyAction cms11) 0 i = colOf cms11 0 i :=
    colOf_congr hbfin hwfin 0 i
  have hvecl : i < cms11.vec.length := by
    have hL : cms11.vec.length = cms11.depth := hWF0.2.2.1
    omega
  have hrowl : (cms11.vec.getD i []).length = cms11.width := by
    rw [getD_eq_getElem _ [] hvecl]
    exact hWF0.2.2.2.1 _ (List.getElem_mem hvecl)
  have hzero : cellAt cms11 i (colOf cms11 0 i) = 0 :=
    cellAt_new onePos onePos zeroHash i (colOf cms11 0 i)
  have hcell := foldl_cell (actionsOf cms11 (List.replicate (2 ^ 64) 0))
    cms11 i (colOf cms11 0 i) hvecl
    (by rw [hrowl]; exact colOf_lt cms11 0 i hWF0.1)
    (by rw [hzero]; exact Nat.zero_le _)
  rw [hzero, Nat.zero_add,
    count_incCell_actionsOf_replicate cms11 0 hidep] at hcell
  have htotal : total_count ((actionsOf cms11
      (List.replicate (2 ^ 64) 0)).foldl applyAction cms11) = 0 := by
    rw [total_count, foldl_counter _ cms11 hWF0.2.2.2.2.2.2,
      count_incTotal_actionsOf, List.length_replicate]
    rw [show cms11.counter = 0 from rfl, Nat.zero_add]
    simp [USIZEMOD]
  refine ⟨v, hq, htotal, List.length_replicate _ _, ?_, by positivity⟩
  rw [hv, hcol, hcell]
  simp only [U64MAX]
  norm_num

/-- C9 (amended): concurrent store path (modelled from the spec, §4.4) — when
`N` `store_parallel` calls against one fresh shared sketch are executed as
atomic per-cell saturating increments and atomic total-counter bumps, and `N`
is at most `2^64 - 1` (so neither the `usize` total counter wraps nor the
`u64` cells saturate below `N`), then after any interleaving (any permutation
`sched` of the calls' atomic actions, which subsumes every thread
interleaving) the barrier observes `total_stores() = N`, and in the same-key
case `query(key) ≥ N`: no update is lost or torn. -/
theorem claim9_concurrent_store (w d : {n : Nat // 0 < n})
    (rs : Nat → K → Nat) (ks : List K) (k : K)
    (sched : List AtomicAction)
    (hN : ks.length ≤ U64MAX)
    (hperm : sched.Perm (actionsOf (new w d rs) ks)) :
    total_count (sched.foldl applyAction (new w d rs)) = ks.length ∧
    (ks = List.replicate ks.length k →
      ∃ v, query (sched.foldl applyAction (new w d rs)) k = some v ∧
        ks.length ≤ v) := by
  have hlt : ks.length < USIZEMOD := lt_of_le_of_lt hN u64max_lt_usizemod
  have htotal :
      total_count (sched.foldl applyAction (new w d rs)) = ks.length := by
    rw [total_count, foldl_counter sched (new w d rs) (WF_new w d rs).2.2.2.2.2.2]
    rw [hperm.count_eq, count_incTotal_actionsOf]
    simp [new, Nat.mod_eq_of_lt hlt]
  refine ⟨htotal, ?_⟩
  intro hks
  have hWFfin : WF (sched.foldl applyAction (new w d rs)) :=
    foldl_WF sched (new w d rs) (WF_new w d rs)
      (fun a ha => actionsOf_WF (new w d rs) (WF_new w d rs).1 ks a
        (hperm.mem_iff.mp ha))
  obtain ⟨hwfin, hdfin, hbfin⟩ := foldl_fields sched (new w d rs)
  obtain ⟨v, hq, _, ⟨i, hi, hv⟩⟩ :=
    query_min_spec (sched.foldl applyAction (new w d rs)) k hWFfin
  have hidep : i < (new w d rs).depth := by rw [hdfin] at hi; exact hi
  have hcol : colOf (sched.foldl applyAction (new w d rs)) k i =
      colOf (new w d rs) k i := colOf_congr hbfin hwfin k i
  have hvecl : i < (new w d rs).vec.length := by
    simp only [new, List.length_replicate]
    exact hidep
  have hrowl : ((new w d rs).vec.getD i []).length = w.1 := by
    rw [getD_eq_getElem _ [] hvecl]
    simp [new]
  have hcell := foldl_cell sched (new w d rs) i (colOf (new w d rs) k i)
    hvecl
    (by rw [hrowl]; exact colOf_lt (new w d rs) k i (WF_new w d rs).1)
    (by rw [cellAt_new]; exact Nat.zero_le _)
  rw [cellAt_new, Nat.zero_add, hperm.count_eq, hks,
    count_incCell_actionsOf_replicate (new w d rs) k hidep] at hcell
  refine ⟨v, hq, ?_⟩
  rw [hv, hcol, hcell]
  exact le_of_eq (Nat.min_eq_left hN).symm

/-- C9 witness: two concurrent stores of the same key against a fresh 1×1
sketch, executed in one concrete interleaving, yield a total of 2 and a
query of at least 2. -/
theorem claim9_witness :
    ([0, 0] : List Nat).length ≤ U64MAX ∧
    (actionsOf cms11 [0, 0]).Perm (actionsOf cms11 [0, 0]) ∧
    total_count ((actionsOf cms11 [0, 0]).foldl applyAction cms11) =
      ([0, 0] : List Nat).length ∧
    (([0, 0] : List Nat) = List.replicate ([0, 0] : List Nat).length 0 →
      ∃ v, query ((actionsOf cms11 [0, 0]).foldl applyAction cms11) 0 =
        some v ∧ ([0, 0] : List Nat).length ≤ v) := by
  refine ⟨by decide, List.Perm.refl _, ?_⟩
  exact claim9_concurrent_store onePos onePos zeroHash [0, 0] 0
    (actionsOf cms11 [0, 0]) (by decide) (List.Perm.refl _)

end CountMin
